import Mathlib

/-!
Verification of the dispatch-table generator (scripts/gen_dispatch_table.py).

We shallowly embed:
* `compute_hash_table` — the linear-probing table builder (the `while` probe
  loop becomes `probeSlot`, structural on the remaining probe budget, and the
  `for` insertion loop becomes `insertLoop`);
* the §4.2 lookup algorithm (`lookup`, plus an instrumented variant
  `lookupTrace` reporting the terminating loop index and slot, and a counting
  variant used for the visit bound);
* the lookup function emitted by `generate_c_code` (`dispatch_hash_lookup`,
  which probes an array of `(key, handler_idx)` pairs, treats `key == 0` as
  the empty sentinel, stores `handler_idx` in a `uint8_t`, and returns `-1`
  for "not found"), together with the emitted table initializer
  (`g_dispatch_hash`: a zero-filled array with one designated initializer per
  computed slot);
* the literal-only enum-value parsing of `parse_enum_values` (the regular
  expression matching is abstracted as the list of `(name, value_str)`
  matches; Python's `int(s)` / `int(s, 16)` conversions are modelled on the
  unsigned decimal / hexadecimal literals relevant here) and the
  unknown-symbol check of `main`.
-/

namespace DispatchTable

/-- One input entry of `compute_hash_table`: a `(name, packet_type,
handler_idx)` triple. -/
structure Entry where
  name : String
  key : Nat
  handler_idx : Nat
deriving DecidableEq, Repr

/-- One element of the `results` list of `compute_hash_table`:
`(slot, name, handler_idx)` plus the data shown in the generated comment
(`hash(key)=origH`, `probed->slot` after `probes` probes). -/
structure Placed where
  slot : Nat
  name : String
  handler_idx : Nat
  key : Nat
  origH : Nat
  probes : Nat
deriving DecidableEq, Repr

/-- The entry a `Placed` record was built from. -/
def toEntry (p : Placed) : Entry :=
  ⟨p.name, p.key, p.handler_idx⟩

/-- The probe loop of `compute_hash_table`:
`while table[h] is not None: h = (h+1) % table_size; probes += 1;
if probes >= table_size: raise`.  The extra fuel argument makes the
recursion structural; it is always called with `fuel = table_size - probes`,
and since the loop aborts as soon as `probes + 1 ≥ table_size`, the
`fuel = 0` branch coincides with the overflow abort. -/
def probeSlot (table : List (Option Entry)) (table_size : Nat) :
    Nat → Nat → Nat → Option (Nat × Nat)
  | _, _, 0 => none
  | h, probes, fuel + 1 =>
    match table.getD h none with
    | none => some (h, probes)
    | some _ =>
      if table_size ≤ probes + 1 then none
      else probeSlot table table_size ((h + 1) % table_size) (probes + 1) fuel

/-- The `for name, ptype, handler_idx in entries` loop of
`compute_hash_table`, threading the table, the `results` accumulator and
`max_probes`.  `none` models the raised overflow `ValueError`. -/
def insertLoop (table_size : Nat) :
    List Entry → List (Option Entry) → List Placed → Nat →
      Option (List (Option Entry) × List Placed × Nat)
  | [], table, results, max_probes => some (table, results, max_probes)
  | e :: rest, table, results, max_probes =>
    match probeSlot table table_size (e.key % table_size) 0 table_size with
    | none => none
    | some (h, probes) =>
      insertLoop table_size rest (table.set h (some e))
        (results ++ [⟨h, e.name, e.handler_idx, e.key, e.key % table_size, probes⟩])
        (max max_probes probes)

/-- The body of `compute_hash_table` before the final `sorted(...)`: the probe table
starts as `[None] * table_size`, `results = []`, `max_probes = 0`. -/
def build (entries : List Entry) (table_size : Nat) :
    Option (List (Option Entry) × List Placed × Nat) :=
  insertLoop table_size entries (List.replicate table_size none) [] 0

/-- The sort key `lambda x: x[0]` of the final `sorted(results, ...)`. -/
def bySlot (a b : Placed) : Prop :=
  a.slot ≤ b.slot

instance : DecidableRel bySlot := fun a b => Nat.decLe a.slot b.slot

/-- The full `compute_hash_table(entries, table_size)`: returns the slot records
sorted by slot together with the maximum probe count, or `none` on the
overflow `ValueError`.  Python's `sorted` is a stable sort; as the slots are
pairwise distinct in every successful build, any stable sort by slot
produces the same list, and we use insertion sort. -/
def compute_hash_table (entries : List Entry) (table_size : Nat) :
    Option (List Placed × Nat) :=
  match build entries table_size with
  | none => none
  | some (_, results, max_probes) => some (results.insertionSort bySlot, max_probes)

/-- The loop of the §4.2 lookup algorithm
(`for i in 0 .. capacity-1: ...`), structural on the remaining iteration
count `fuel = table_size - i`; `fuel = 0` is the `return NotFound` after
the loop. -/
def lookupLoop (table : List (Option Entry)) (table_size key home : Nat) :
    Nat → Nat → Option Nat
  | _, 0 => none
  | i, fuel + 1 =>
    match table.getD ((home + i) % table_size) none with
    | none => none
    | some e =>
      if e.key = key then some e.handler_idx
      else lookupLoop table table_size key home (i + 1) fuel

/-- The §4.2 lookup algorithm: `home = key mod capacity`, probe
`(home + i) mod capacity` for `i = 0 .. capacity-1`, `NotFound = none`. -/
def lookup (table : List (Option Entry)) (table_size key : Nat) : Option Nat :=
  lookupLoop table table_size key (key % table_size) 0 table_size

/-- Instrumented variant of `lookupLoop` that also reports the loop index
and the slot at which the key was found. -/
def lookupTraceLoop (table : List (Option Entry)) (table_size key home : Nat) :
    Nat → Nat → Option (Nat × Nat × Nat)
  | _, 0 => none
  | i, fuel + 1 =>
    match table.getD ((home + i) % table_size) none with
    | none => none
    | some e =>
      if e.key = key then some (i, (home + i) % table_size, e.handler_idx)
      else lookupTraceLoop table table_size key home (i + 1) fuel

/-- The instrumented §4.2 lookup: `some (i, slot, handler_idx)` when the key is
found at loop step `i` in slot `slot`. -/
def lookupTrace (table : List (Option Entry)) (table_size key : Nat) :
    Option (Nat × Nat × Nat) :=
  lookupTraceLoop table table_size key (key % table_size) 0 table_size

/-- How a table slot is rendered in the emitted C array: an `Empty` slot is
the zero-filled record `{0, 0}`, an occupied slot stores the key and the
handler index truncated to the `uint8_t` field. -/
def cSlotOf : Option Entry → Nat × Nat
  | none => (0, 0)
  | some e => (e.key, e.handler_idx % 256)

/-- The emitted table initializer: a `table_size`-element array, zero
apart from one designated initializer `[slot] = {key, handler_idx}` per
record of the (sorted) `results` list. -/
def g_dispatch_hash (results : List Placed) (table_size : Nat) :
    List (Nat × Nat) :=
  results.foldl (fun acc p => acc.set p.slot (p.key, p.handler_idx % 256))
    (List.replicate table_size (0, 0))

/-- The loop of the emitted `dispatch_hash_lookup`, with the number of slots
inspected as second component: `fuel = table_size - i`, and `fuel = 0` is
the `return -1` after the loop (having inspected `i` slots). -/
def cLookupLoop (ctable : List (Nat × Nat)) (table_size ptype h : Nat) :
    Nat → Nat → Int × Nat
  | i, 0 => (-1, i)
  | i, fuel + 1 =>
    match ctable.getD ((h + i) % table_size) (0, 0) with
    | (k, v) =>
      if k = 0 then (-1, i + 1)
      else if k = ptype then ((v : Int), i + 1)
      else cLookupLoop ctable table_size ptype h (i + 1) fuel

/-- The lookup function emitted by `generate_c_code`:
`h = type % SIZE`, probe `(h + i) % SIZE` for `i = 0 .. SIZE-1`;
`key == 0` means empty (`return -1`), `key == type` returns the stored
handler index, and the fallthrough returns `-1`. -/
def dispatch_hash_lookup (ctable : List (Nat × Nat)) (table_size ptype : Nat) :
    Int :=
  (cLookupLoop ctable table_size ptype (ptype % table_size) 0 table_size).1

/-- The §4.2 result as the emitted function reports it: `NotFound` is `-1`. -/
def intOfLookup : Option Nat → Int
  | none => -1
  | some v => (v : Int)

/-! ### List access helper lemmas -/

theorem getD_eq_of_length_le {α : Type _} :
    ∀ (l : List α) (i : Nat) (d : α), l.length ≤ i → l.getD i d = d
  | [], _, _, _ => rfl
  | _ :: _, 0, _, h => absurd h (by simp)
  | _ :: l, i + 1, d, h => getD_eq_of_length_le l i d (by simpa using h)

theorem lt_length_of_getD_ne {α : Type _} {l : List α} {i : Nat} {d : α}
    (h : l.getD i d ≠ d) : i < l.length := by
  by_contra hc
  exact h (getD_eq_of_length_le l i d (by omega))

theorem getD_set_self {α : Type _} :
    ∀ (l : List α) (i : Nat) (a d : α), i < l.length → (l.set i a).getD i d = a
  | [], i, _, _, h => by simp at h
  | _ :: _, 0, _, _, _ => rfl
  | _ :: l, i + 1, a, d, h => getD_set_self l i a d (by simpa using h)

theorem getD_set_ne {α : Type _} :
    ∀ (l : List α) {i j : Nat} (a : α) (d : α), i ≠ j →
      (l.set i a).getD j d = l.getD j d
  | [], _, _, _, _, _ => rfl
  | _ :: _, 0, 0, _, _, h => absurd rfl h
  | _ :: _, 0, _ + 1, _, _, _ => rfl
  | _ :: _, _ + 1, 0, _, _, _ => rfl
  | _ :: l, i + 1, j + 1, a, d, h => getD_set_ne l a d (fun hc => h (by omega))

theorem getD_replicate {α : Type _} :
    ∀ (n i : Nat) (a d : α), (List.replicate n a).getD i d = if i < n then a else d
  | 0, i, a, d => by simp [getD_eq_of_length_le]
  | n + 1, 0, a, d => by simp [List.replicate]
  | n + 1, i + 1, a, d => by
    simp only [List.replicate, List.getD_cons_succ]
    rw [getD_replicate n i a d]
    exact if_congr (by omega) rfl rfl

theorem getD_map {α β : Type _} (f : α → β) :
    ∀ (l : List α) (i : Nat) (d : α), (l.map f).getD i (f d) = f (l.getD i d)
  | [], _, _ => rfl
  | _ :: _, 0, _ => rfl
  | _ :: l, i + 1, d => getD_map f l i d

theorem getD_eq_get {α : Type _} :
    ∀ (l : List α) (i : Nat) (d : α) (h : i < l.length), l.getD i d = l.get ⟨i, h⟩
  | _ :: _, 0, _, _ => rfl
  | _ :: l, i + 1, d, h => getD_eq_get l i d (by simpa using h)

theorem countP_set_some {α : Type _} :
    ∀ (l : List (Option α)) (i : Nat) (a : α), i < l.length → l.getD i none = none →
      (l.set i (some a)).countP (fun s => s.isSome) =
        l.countP (fun s => s.isSome) + 1
  | [], i, _, h, _ => by simp at h
  | x :: l, 0, a, _, he => by
    have hx : x = none := he
    subst hx
    simp [List.countP_cons]
  | x :: l, i + 1, a, h, he => by
    have := countP_set_some l i a (by simpa using h) he
    simp only [List.set, List.countP_cons]
    omega

theorem exists_empty_of_countP_lt {α : Type _} (l : List (Option α))
    (h : l.countP (fun s => s.isSome) < l.length) :
    ∃ j, j < l.length ∧ l.getD j none = none := by
  by_contra hc
  push_neg at hc
  have hall : ∀ s ∈ l, (fun s : Option α => s.isSome) s = true := by
    intro s hs
    obtain ⟨⟨j, hj⟩, rfl⟩ := List.get_of_mem hs
    have := hc j hj
    rw [getD_eq_get _ _ _ hj] at this
    simpa [Option.isSome_iff_ne_none] using this
  have := List.countP_eq_length.mpr hall
  omega

/-! ### Modular arithmetic helper lemmas -/

theorem add_mod_inj {N h a b : Nat} (ha : a < N) (hb : b < N)
    (heq : (h + a) % N = (h + b) % N) : a = b := by
  have h2 : a % N = b % N := Nat.ModEq.add_left_cancel' h heq
  rwa [Nat.mod_eq_of_lt ha, Nat.mod_eq_of_lt hb] at h2

theorem exists_probe_index {N h0 j : Nat} (hh : h0 < N) (hj : j < N) :
    ∃ i, i < N ∧ (h0 + i) % N = j := by
  refine ⟨(N + j - h0) % N, Nat.mod_lt _ (by omega), ?_⟩
  rw [Nat.add_comm h0, Nat.mod_add_mod, Nat.add_comm _ h0]
  have h2 : h0 + (N + j - h0) = N + j := by omega
  rw [h2, Nat.add_comm N j, Nat.add_mod_right]
  exact Nat.mod_eq_of_lt hj

/-! ### Probe-loop lemmas -/



theorem shift_mod (N h i : Nat) : ((h + 1) % N + i) % N = (h + (i + 1)) % N := by
  rw [Nat.mod_add_mod]
  congr 1
  omega

/-- Soundness of the probe loop: on success it returns the first empty slot
on the probe path, every earlier slot on the path being occupied. -/
theorem probeSlot_sound (table : List (Option Entry)) (N : Nat) :
    ∀ (fuel h probes h' p' : Nat), probes + fuel = N → h < N →
      probeSlot table N h probes fuel = some (h', p') →
      ∃ d, d < fuel ∧ p' = probes + d ∧ h' = (h + d) % N ∧
        table.getD h' none = none ∧
        ∀ i, i < d → table.getD ((h + i) % N) none ≠ none := by
  intro fuel
  induction fuel with
  | zero => intro h probes h' p' _ _ heq; simp [probeSlot] at heq
  | succ fuel ih =>
    intro h probes h' p' hfuel hh heq
    rw [probeSlot] at heq
    cases hslot : table.getD h none with
    | none =>
      rw [hslot] at heq
      simp only [Option.some.injEq, Prod.mk.injEq] at heq
      obtain ⟨rfl, rfl⟩ := heq
      exact ⟨0, by omega, by omega, by rw [Nat.add_zero, Nat.mod_eq_of_lt hh],
        hslot, fun i hi => absurd hi (by omega)⟩
    | some e =>
      rw [hslot] at heq
      by_cases hb : N ≤ probes + 1
      · simp [hb] at heq
      · rw [if_neg hb] at heq
        obtain ⟨d, hd, hp', hh', hempty, hpath⟩ :=
          ih ((h + 1) % N) (probes + 1) h' p' (by omega) (Nat.mod_lt _ (by omega)) heq
        refine ⟨d + 1, by omega, by omega, by rw [hh', shift_mod], hempty, ?_⟩
        intro i hi
        match i with
        | 0 =>
          rw [Nat.add_zero, Nat.mod_eq_of_lt hh, hslot]
          simp
        | i + 1 =>
          have := hpath i (by omega)
          rwa [shift_mod] at this

/-- Success of the probe loop: if some slot on the remaining probe path is
empty, the loop does not overflow. -/
theorem probeSlot_success (table : List (Option Entry)) (N : Nat) :
    ∀ (fuel h probes : Nat), probes + fuel = N → h < N →
      (∃ i, i < fuel ∧ table.getD ((h + i) % N) none = none) →
      ∃ h' p', probeSlot table N h probes fuel = some (h', p') := by
  intro fuel
  induction fuel with
  | zero => intro h probes _ _ ⟨i, hi, _⟩; omega
  | succ fuel ih =>
    intro h probes hfuel hh ⟨i, hi, hempty⟩
    rw [probeSlot]
    cases hslot : table.getD h none with
    | none => exact ⟨h, probes, rfl⟩
    | some e =>
      have hib : i ≠ 0 := by
        intro h0
        rw [h0, Nat.add_zero, Nat.mod_eq_of_lt hh] at hempty
        rw [hempty] at hslot
        exact Option.noConfusion hslot
      have hb : ¬ N ≤ probes + 1 := by
        intro hle
        have : fuel = 0 := by omega
        omega
      rw [if_neg hb]
      refine ih ((h + 1) % N) (probes + 1) (by omega) (Nat.mod_lt _ (by omega)) ?_
      obtain ⟨i', rfl⟩ : ∃ i', i = i' + 1 := ⟨i - 1, by omega⟩
      refine ⟨i', by omega, ?_⟩
      rwa [shift_mod]


/-! ### The builder invariant -/

/-- Invariant of `insertLoop`: `table` holds exactly the entries recorded in
`placed`, each at its recorded slot, reached from its home slot
`key % table_size` after `probes` occupied slots, with same-key records
placed in strictly increasing probe order. -/
structure Inv (table_size : Nat) (table : List (Option Entry))
    (placed : List Placed) : Prop where
  len : table.length = table_size
  content : ∀ p ∈ placed, table.getD p.slot none = some (toEntry p)
  occFrom : ∀ j, table.getD j none ≠ none → ∃ p ∈ placed, p.slot = j
  slotsNodup : (placed.map Placed.slot).Nodup
  slotLt : ∀ p ∈ placed, p.slot < table_size
  slotEq : ∀ p ∈ placed, p.slot = (p.key % table_size + p.probes) % table_size
  origHEq : ∀ p ∈ placed, p.origH = p.key % table_size
  probesLt : ∀ p ∈ placed, p.probes < table_size
  path : ∀ p ∈ placed, ∀ i, i < p.probes →
    table.getD ((p.key % table_size + i) % table_size) none ≠ none
  occCount : table.countP (fun s => s.isSome) = placed.length
  probeMono : placed.Pairwise (fun p q => p.key = q.key → p.probes < q.probes)

/-- The invariant holds for the initial all-`None` table. -/
theorem inv_init (N : Nat) : Inv N (List.replicate N none) [] where
  len := List.length_replicate N none
  content := by simp
  occFrom := by
    intro j hj
    rw [getD_replicate] at hj
    by_cases h : j < N <;> simp [h] at hj
  slotsNodup := List.nodup_nil
  slotLt := by simp
  slotEq := by simp
  origHEq := by simp
  probesLt := by simp
  path := by simp
  occCount := by
    rw [List.countP_eq_zero.mpr]
    · rfl
    · intro a ha
      rw [List.eq_of_mem_replicate ha]
      simp
  probeMono := List.Pairwise.nil

/-- One iteration of the insertion loop preserves the invariant. -/
theorem step_inv {N : Nat} (hN : 0 < N) {table : List (Option Entry)}
    {placed : List Placed} (e : Entry) {h' d : Nat}
    (hInv : Inv N table placed)
    (hp : probeSlot table N (e.key % N) 0 N = some (h', d)) :
    Inv N (table.set h' (some e))
      (placed ++ [⟨h', e.name, e.handler_idx, e.key, e.key % N, d⟩]) := by
  obtain ⟨d', hd', hpd, hslot, hempty, hpath⟩ :=
    probeSlot_sound table N N (e.key % N) 0 h' d (by omega) (Nat.mod_lt _ hN) hp
  rw [Nat.zero_add] at hpd
  subst hpd
  have hh' : h' < N := by rw [hslot]; exact Nat.mod_lt _ hN
  have hh'len : h' < table.length := by rw [hInv.len]; exact hh'
  have hfresh : ∀ p ∈ placed, p.slot ≠ h' := by
    intro p hpmem hcontra
    have := hInv.content p hpmem
    rw [hcontra, hempty] at this
    exact Option.noConfusion this
  constructor
  case len => rw [List.length_set]; exact hInv.len
  case content =>
    intro p hpmem
    rcases List.mem_append.mp hpmem with hold | hnew
    · rw [getD_set_ne _ _ _ (fun hc => hfresh p hold hc.symm)]
      exact hInv.content p hold
    · rcases List.mem_singleton.mp hnew with rfl
      rw [getD_set_self _ _ _ _ hh'len]
      rfl
  case occFrom =>
    intro j hj
    by_cases hjh : j = h'
    · exact ⟨⟨h', e.name, e.handler_idx, e.key, e.key % N, d⟩,
        List.mem_append_right _ (List.mem_singleton.mpr rfl), hjh.symm⟩
    · rw [getD_set_ne _ _ _ (fun hc => hjh hc.symm)] at hj
      obtain ⟨p, hpmem, hps⟩ := hInv.occFrom j hj
      exact ⟨p, List.mem_append_left _ hpmem, hps⟩
  case slotsNodup =>
    rw [List.map_append]
    simp only [List.map_cons, List.map_nil]
    rw [List.nodup_append]
    refine ⟨hInv.slotsNodup, List.nodup_singleton _, ?_⟩
    intro s hs hs1
    rw [List.mem_singleton] at hs1
    obtain ⟨p, hpmem, rfl⟩ := List.mem_map.mp hs
    exact hfresh p hpmem hs1
  case slotLt =>
    intro p hpmem
    rcases List.mem_append.mp hpmem with hold | hnew
    · exact hInv.slotLt p hold
    · rcases List.mem_singleton.mp hnew with rfl
      exact hh'
  case slotEq =>
    intro p hpmem
    rcases List.mem_append.mp hpmem with hold | hnew
    · exact hInv.slotEq p hold
    · rcases List.mem_singleton.mp hnew with rfl
      exact hslot
  case origHEq =>
    intro p hpmem
    rcases List.mem_append.mp hpmem with hold | hnew
    · exact hInv.origHEq p hold
    · rcases List.mem_singleton.mp hnew with rfl
      rfl
  case probesLt =>
    intro p hpmem
    rcases List.mem_append.mp hpmem with hold | hnew
    · exact hInv.probesLt p hold
    · rcases List.mem_singleton.mp hnew with rfl
      show d < N
      omega
  case path =>
    intro p hpmem i hi
    have hmono : ∀ j, table.getD j none ≠ none →
        (table.set h' (some e)).getD j none ≠ none := by
      intro j hj
      by_cases hjh : j = h'
      · subst hjh
        rw [getD_set_self _ _ _ _ hh'len]
        simp
      · rwa [getD_set_ne _ _ _ (fun hc => hjh hc.symm)]
    rcases List.mem_append.mp hpmem with hold | hnew
    · exact hmono _ (hInv.path p hold i hi)
    · rcases List.mem_singleton.mp hnew with rfl
      exact hmono _ (hpath i hi)
  case occCount =>
    rw [countP_set_some table h' e hh'len hempty, hInv.occCount,
      List.length_append, List.length_singleton]
  case probeMono =>
    rw [List.pairwise_append]
    refine ⟨hInv.probeMono, List.pairwise_singleton _ _, ?_⟩
    intro p hpmem q hq hkey
    rw [List.mem_singleton] at hq
    subst hq
    simp only at hkey ⊢
    -- p is an earlier record with the same key, hence the same home slot;
    -- its own slot and path are occupied, so the new probe walk passes them.
    by_contra hle
    push_neg at hle
    have hple : p.probes < N := hInv.probesLt p hpmem
    have hkeymod : p.key % N = e.key % N := by rw [hkey]
    by_cases heq : d = p.probes
    · -- the new record would land on p's (occupied) slot
      have := hInv.content p hpmem
      rw [hInv.slotEq p hpmem, hkeymod, ← heq, ← hslot, hempty] at this
      exact Option.noConfusion this
    · -- d < p.probes: p's path at index d is occupied, but slot h' is empty
      have hdp : d < p.probes := by omega
      have := hInv.path p hpmem d hdp
      rw [hkeymod, ← hslot, hempty] at this
      exact this rfl



/-- Soundness of the insertion loop: a successful run preserves the
invariant and appends one record per remaining entry, in order. -/
theorem insertLoop_inv {N : Nat} (hN : 0 < N) :
    ∀ (rest : List Entry) (table : List (Option Entry)) (placed : List Placed)
      (mp : Nat) (table' : List (Option Entry)) (placed' : List Placed) (mp' : Nat),
      Inv N table placed →
      insertLoop N rest table placed mp = some (table', placed', mp') →
      Inv N table' placed' ∧ placed'.map toEntry = placed.map toEntry ++ rest := by
  intro rest
  induction rest with
  | nil =>
    intro table placed mp table' placed' mp' hInv heq
    rw [insertLoop] at heq
    simp only [Option.some.injEq, Prod.mk.injEq] at heq
    obtain ⟨rfl, rfl, rfl⟩ := heq
    exact ⟨hInv, by simp⟩
  | cons e rest ih =>
    intro table placed mp table' placed' mp' hInv heq
    rw [insertLoop] at heq
    cases hp : probeSlot table N (e.key % N) 0 N with
    | none => rw [hp] at heq; exact Option.noConfusion heq
    | some hd =>
      obtain ⟨h', d⟩ := hd
      rw [hp] at heq
      obtain ⟨hInv', hmap⟩ := ih _ _ _ _ _ _ (step_inv hN e hInv hp) heq
      refine ⟨hInv', ?_⟩
      rw [hmap, List.map_append]
      simp [toEntry]

/-- Progress of the insertion loop: as long as the table has room for the
remaining entries, every insertion succeeds. -/
theorem insertLoop_spec {N : Nat} (hN : 0 < N) :
    ∀ (rest : List Entry) (table : List (Option Entry)) (placed : List Placed)
      (mp : Nat),
      Inv N table placed → placed.length + rest.length ≤ N →
      ∃ table' placed' mp',
        insertLoop N rest table placed mp = some (table', placed', mp') ∧
        Inv N table' placed' ∧ placed'.map toEntry = placed.map toEntry ++ rest := by
  intro rest
  induction rest with
  | nil =>
    intro table placed mp hInv _
    exact ⟨table, placed, mp, rfl, hInv, by simp⟩
  | cons e rest ih =>
    intro table placed mp hInv hroom
    -- the table still has an empty slot
    have hcount : table.countP (fun s => s.isSome) < table.length := by
      rw [hInv.occCount, hInv.len]
      simp only [List.length_cons] at hroom
      omega
    obtain ⟨j, hjlen, hjempty⟩ := exists_empty_of_countP_lt table hcount
    have hjN : j < N := by rwa [hInv.len] at hjlen
    obtain ⟨i, hiN, hieq⟩ := exists_probe_index (Nat.mod_lt e.key hN) hjN
    obtain ⟨h', d, hp⟩ := probeSlot_success table N N (e.key % N) 0 (by omega)
      (Nat.mod_lt _ hN) ⟨i, hiN, by rw [hieq]; exact hjempty⟩
    obtain ⟨table', placed', mp', heq, hInv', hmap⟩ :=
      ih (table.set h' (some e))
        (placed ++ [⟨h', e.name, e.handler_idx, e.key, e.key % N, d⟩])
        (max mp d) (step_inv hN e hInv hp)
        (by simp only [List.length_append, List.length_singleton,
              List.length_cons, List.length_nil] at hroom ⊢; omega)
    refine ⟨table', placed', mp', ?_, hInv', ?_⟩
    · rw [insertLoop, hp]
      exact heq
    · rw [hmap, List.map_append]
      simp [toEntry]

/-- Soundness of `build`, packaged: a successful `build` satisfies the
invariant, and its records list the input entries in order. -/
theorem build_inv {entries : List Entry} {N : Nat} (hN : 0 < N)
    {table : List (Option Entry)} {placed : List Placed} {mp : Nat}
    (heq : build entries N = some (table, placed, mp)) :
    Inv N table placed ∧ placed.map toEntry = entries := by
  obtain ⟨hInv, hmap⟩ := insertLoop_inv hN entries _ _ _ _ _ _ (inv_init N) heq
  exact ⟨hInv, by simpa using hmap⟩

/-- Progress of `build`, packaged: with room for all entries, `build`
succeeds. -/
theorem build_spec {entries : List Entry} {N : Nat} (hN : 0 < N)
    (hroom : entries.length ≤ N) :
    ∃ table placed mp, build entries N = some (table, placed, mp) ∧
      Inv N table placed ∧ placed.map toEntry = entries := by
  obtain ⟨table, placed, mp, heq, hInv, hmap⟩ :=
    insertLoop_spec hN entries (List.replicate N none) [] 0 (inv_init N)
      (by simpa using hroom)
  exact ⟨table, placed, mp, heq, hInv, by simpa using hmap⟩



/-! ### Lookup lemmas -/

/-- The plain §4.2 loop is the projection of the instrumented loop. -/
theorem lookupLoop_eq_trace (table : List (Option Entry))
    (N key home : Nat) :
    ∀ (fuel i : Nat), lookupLoop table N key home i fuel =
      (lookupTraceLoop table N key home i fuel).map (fun r => r.2.2) := by
  intro fuel
  induction fuel with
  | zero => intro i; rfl
  | succ fuel ih =>
    intro i
    rw [lookupLoop, lookupTraceLoop]
    cases table.getD ((home + i) % N) none with
    | none => rfl
    | some e =>
      by_cases hk : e.key = key
      · simp [hk]
      · simp only [if_neg hk]
        exact ih (i + 1)

theorem lookup_eq_trace (table : List (Option Entry)) (N key : Nat) :
    lookup table N key = (lookupTrace table N key).map (fun r => r.2.2) :=
  lookupLoop_eq_trace table N key (key % N) N 0

/-- The instrumented §4.2 loop stops at step `t` when the slots at steps
`i, …, t-1` hold keys different from `key` and the slot at step `t` holds
`key`. -/
theorem lookupTraceLoop_hit (table : List (Option Entry)) (N key home : Nat)
    (t : Nat) (e : Entry) (ht : t < N)
    (hhit : table.getD ((home + t) % N) none = some e) (hkey : e.key = key)
    (hmiss : ∀ j, j < t → ∃ e', table.getD ((home + j) % N) none = some e' ∧
      e'.key ≠ key) :
    ∀ (fuel i : Nat), i + fuel = N → i ≤ t →
      lookupTraceLoop table N key home i fuel =
        some (t, (home + t) % N, e.handler_idx) := by
  intro fuel
  induction fuel with
  | zero => intro i hN hit; omega
  | succ fuel ih =>
    intro i hN hit
    rw [lookupTraceLoop]
    by_cases hi : i = t
    · subst hi
      rw [hhit]
      simp [hkey]
    · obtain ⟨e', hslot, hne⟩ := hmiss i (by omega)
      rw [hslot]
      simp only [if_neg hne]
      exact ih (i + 1) (by omega) (by omega)

/-- The §4.2 lookup finds, among the records of a key, the one with the fewest
probes — at exactly its recorded loop step and slot. -/
theorem lookup_min {N : Nat} {table : List (Option Entry)}
    {placed : List Placed} (hInv : Inv N table placed)
    (p₀ : Placed) (hp₀ : p₀ ∈ placed) {k : Nat} (hk : p₀.key = k)
    (hmin : ∀ q ∈ placed, q.key = k → p₀.probes ≤ q.probes) :
    lookupTrace table N k = some (p₀.probes, p₀.slot, p₀.handler_idx) := by
  have hploc := hInv.slotEq p₀ hp₀
  have hplt := hInv.probesLt p₀ hp₀
  have hhit : table.getD ((k % N + p₀.probes) % N) none = some (toEntry p₀) := by
    rw [← hk, ← hploc]
    exact hInv.content p₀ hp₀
  have hmiss : ∀ j, j < p₀.probes →
      ∃ e', table.getD ((k % N + j) % N) none = some e' ∧ e'.key ≠ k := by
    intro j hj
    have hocc := hInv.path p₀ hp₀ j hj
    rw [hk] at hocc
    cases hslot : table.getD ((k % N + j) % N) none with
    | none => exact absurd hslot hocc
    | some e' =>
      refine ⟨e', rfl, ?_⟩
      intro hek
      obtain ⟨q, hq, hqslot⟩ := hInv.occFrom _ (by rw [hslot]; simp)
      have hqcontent := hInv.content q hq
      rw [hqslot, hslot] at hqcontent
      have heq' : e' = toEntry q := by
        cases hqcontent
        rfl
      have hqkey : q.key = k := by rw [← hek, heq']; rfl
      -- q's recorded probe count equals j, contradicting minimality
      have hqloc := hInv.slotEq q hq
      rw [hqslot, hqkey] at hqloc
      have hqlt := hInv.probesLt q hq
      have : j = q.probes := add_mod_inj (by omega) hqlt hqloc
      have := hmin q hq hqkey
      omega
  have hploc' : p₀.slot = (k % N + p₀.probes) % N := by rw [hploc, hk]
  have hfin := lookupTraceLoop_hit table N k (k % N) p₀.probes (toEntry p₀) hplt
    hhit (by rw [← hk]; rfl) hmiss N 0 (by omega) (by omega)
  rw [lookupTrace, hfin, ← hploc']
  rfl

/-- The §4.2 lookup misses every key that occupies no slot of the table. -/
theorem lookupLoop_absent {table : List (Option Entry)} {N key : Nat}
    (habs : ∀ j (e : Entry), table.getD j none = some e → e.key ≠ key) :
    ∀ (fuel i home : Nat), lookupLoop table N key home i fuel = none := by
  intro fuel
  induction fuel with
  | zero => intro i home; rfl
  | succ fuel ih =>
    intro i home
    rw [lookupLoop]
    cases hslot : table.getD ((home + i) % N) none with
    | none => rfl
    | some e =>
      simp only [if_neg (habs _ e hslot)]
      exact ih (i + 1) home



/-! ### Emitted-table lemmas -/

theorem getD_eq_getElem_here {α : Type _} (l : List α) (i : Nat) (d : α)
    (h : i < l.length) : l.getD i d = l[i] := by
  rw [getD_eq_get l i d h, List.get_eq_getElem]

theorem g_foldl_length :
    ∀ (results : List Placed) (init : List (Nat × Nat)),
      (results.foldl (fun acc p => acc.set p.slot (p.key, p.handler_idx % 256))
        init).length = init.length
  | [], _ => rfl
  | p :: rest, init => by
    rw [List.foldl_cons, g_foldl_length rest, List.length_set]

theorem g_foldl_getD :
    ∀ (results : List Placed) (init : List (Nat × Nat)) (j : Nat),
      (∀ p ∈ results, p.slot < init.length) →
      (results.map Placed.slot).Nodup →
      (results.foldl (fun acc p => acc.set p.slot (p.key, p.handler_idx % 256))
          init).getD j (0, 0) =
        match results.find? (fun p => p.slot == j) with
        | some p => (p.key, p.handler_idx % 256)
        | none => init.getD j (0, 0)
  | [], init, j, _, _ => by simp
  | p :: rest, init, j, hlt, hnd => by
    rw [List.foldl_cons]
    have hndrest : (rest.map Placed.slot).Nodup := by
      simp only [List.map_cons, List.nodup_cons] at hnd
      exact hnd.2
    have hltrest : ∀ q ∈ rest, q.slot < (init.set p.slot (p.key, p.handler_idx % 256)).length := by
      intro q hq
      rw [List.length_set]
      exact hlt q (List.mem_cons_of_mem _ hq)
    by_cases hpj : p.slot = j
    · rw [List.find?_cons_of_pos _ (by simp [hpj])]
      rw [g_foldl_getD rest _ j hltrest hndrest]
      have hnone : rest.find? (fun q => q.slot == j) = none := by
        rw [List.find?_eq_none]
        intro q hq hbeq
        have hqj : q.slot = j := by simpa using hbeq
        simp only [List.map_cons, List.nodup_cons] at hnd
        exact hnd.1 (by rw [← hpj] at hqj; rw [← hqj]; exact List.mem_map_of_mem _ hq)
      rw [hnone]
      subst hpj
      exact getD_set_self _ _ _ _ (hlt p (List.mem_cons_self _ _))
    · rw [List.find?_cons_of_neg _ (by simp [hpj])]
      rw [g_foldl_getD rest _ j hltrest hndrest]
      cases rest.find? (fun q => q.slot == j) with
      | some q => rfl
      | none => exact getD_set_ne _ _ _ hpj

/-- The emitted designated-initializer array coincides, slot by slot, with
the rendering of the builder's internal table. -/
theorem g_dispatch_hash_eq {N : Nat} {table : List (Option Entry)}
    {placed : List Placed} (hInv : Inv N table placed)
    {res' : List Placed} (hperm : res'.Perm placed) :
    g_dispatch_hash res' N = table.map cSlotOf := by
  have hlen : (g_dispatch_hash res' N).length = N := by
    rw [g_dispatch_hash, g_foldl_length, List.length_replicate]
  have hlen2 : (table.map cSlotOf).length = N := by
    rw [List.length_map, hInv.len]
  apply List.ext_getElem (by rw [hlen, hlen2])
  intro j h1 h2
  rw [← getD_eq_getElem_here _ j (0, 0) h1, ← getD_eq_getElem_here _ j (0, 0) h2]
  have hjN : j < N := by rwa [hlen] at h1
  have hlt : ∀ p ∈ res', p.slot < (List.replicate N ((0 : Nat), (0 : Nat))).length := by
    intro p hp
    rw [List.length_replicate]
    exact hInv.slotLt p (hperm.mem_iff.mp hp)
  have hnd : (res'.map Placed.slot).Nodup :=
    ((hperm.map Placed.slot).nodup_iff).mpr hInv.slotsNodup
  rw [g_dispatch_hash, g_foldl_getD res' _ j hlt hnd]
  have hmapD : (table.map cSlotOf).getD j (0, 0) = cSlotOf (table.getD j none) :=
    getD_map cSlotOf table j none
  cases hfind : res'.find? (fun p => p.slot == j) with
  | some p =>
    have hpj : p.slot = j := by simpa using List.find?_some hfind
    have hpm : p ∈ placed := hperm.mem_iff.mp (List.mem_of_find?_eq_some hfind)
    have := hInv.content p hpm
    rw [hpj] at this
    rw [hmapD, this]
    rfl
  | none =>
    have hempty : table.getD j none = none := by
      cases hslot : table.getD j none with
      | none => rfl
      | some e =>
        obtain ⟨p, hpm, hpj⟩ := hInv.occFrom j (by rw [hslot]; simp)
        have : p.slot == j := by simp [hpj]
        have hmem' : p ∈ res' := hperm.mem_iff.mpr hpm
        rw [List.find?_eq_none] at hfind
        exact absurd this (hfind p hmem')
    rw [hmapD, hempty, getD_replicate]
    simp [hjN, cSlotOf]

/-- On a table whose occupied slots have nonzero keys and byte-sized handler
indices, the emitted lookup loop computes the §4.2 result (with `-1` for
`NotFound`). -/
theorem cLookupLoop_eq {table : List (Option Entry)} {N key : Nat}
    (hclean : ∀ j (e : Entry), table.getD j none = some e →
      e.key ≠ 0 ∧ e.handler_idx < 256) :
    ∀ (fuel i home : Nat),
      (cLookupLoop (table.map cSlotOf) N key home i fuel).1 =
        intOfLookup (lookupLoop table N key home i fuel) := by
  intro fuel
  induction fuel with
  | zero => intro i home; rfl
  | succ fuel ih =>
    intro i home
    rw [cLookupLoop, lookupLoop]
    have hmapD : (table.map cSlotOf).getD ((home + i) % N) (0, 0) =
        cSlotOf (table.getD ((home + i) % N) none) :=
      getD_map cSlotOf table _ none
    rw [hmapD]
    cases hslot : table.getD ((home + i) % N) none with
    | none => rfl
    | some e =>
      obtain ⟨hk0, hh256⟩ := hclean _ e hslot
      simp only [cSlotOf, if_neg hk0]
      by_cases hk : e.key = key
      · simp only [if_pos hk, intOfLookup, Nat.mod_eq_of_lt hh256]
      · simp only [if_neg hk]
        exact ih (i + 1) home

/-- The emitted lookup loop inspects at most `table_size` slots. -/
theorem cLookupLoop_count (ctable : List (Nat × Nat)) (N key home : Nat) :
    ∀ (fuel i : Nat), i + fuel = N →
      (cLookupLoop ctable N key home i fuel).2 ≤ N := by
  intro fuel
  induction fuel with
  | zero => intro i hi; simp [cLookupLoop]; omega
  | succ fuel ih =>
    intro i hi
    rw [cLookupLoop]
    cases ctable.getD ((home + i) % N) (0, 0) with
    | mk k v =>
      by_cases hk0 : k = 0
      · simp only [if_pos hk0]
        show i + 1 ≤ N
        omega
      · by_cases hk : k = key
        · simp only [if_neg hk0, if_pos hk]
          show i + 1 ≤ N
          omega
        · simp only [if_neg hk0, if_neg hk]
          exact ih (i + 1) (by omega)

/-- The emitted lookup loop returns `-1` when no occupied slot holds the
key. -/
theorem cLookupLoop_absent {table : List (Option Entry)} {N key : Nat}
    (habs : ∀ j (e : Entry), table.getD j none = some e → e.key ≠ key) :
    ∀ (fuel i home : Nat),
      (cLookupLoop (table.map cSlotOf) N key home i fuel).1 = -1 := by
  intro fuel
  induction fuel with
  | zero => intro i home; rfl
  | succ fuel ih =>
    intro i home
    rw [cLookupLoop]
    have hmapD : (table.map cSlotOf).getD ((home + i) % N) (0, 0) =
        cSlotOf (table.getD ((home + i) % N) none) :=
      getD_map cSlotOf table _ none
    rw [hmapD]
    cases hslot : table.getD ((home + i) % N) none with
    | none => rfl
    | some e =>
      by_cases hk0 : e.key = 0
      · simp [cSlotOf, hk0]
      · simp only [cSlotOf, if_neg hk0, if_neg (habs _ e hslot)]
        exact ih (i + 1) home



/-! ### Enum-value parsing and symbol resolution (`parse_enum_values`, `main`) -/

/-- One decimal digit, as in Python's `int(s)`. -/
def decDigitVal (c : Char) : Nat :=
  c.toNat - 48

/-- Hexadecimal digit test, as accepted by Python's `int(s, 16)`. -/
def isHexDigitChar (c : Char) : Bool :=
  c.isDigit || ('a' ≤ c && c ≤ 'f') || ('A' ≤ c && c ≤ 'F')

/-- One hexadecimal digit value. -/
def hexDigitVal (c : Char) : Nat :=
  if c.isDigit then c.toNat - 48
  else if 'a' ≤ c && c ≤ 'f' then c.toNat - 87
  else c.toNat - 55

/-- Python's `int(value_str)` on the (unsigned) decimal literals that can
occur as enum values: all characters must be decimal digits.  Any other
string — e.g. an expression such as `BAR + 1` — raises `ValueError`,
modelled as `none`. -/
def pyIntDec (s : List Char) : Option Nat :=
  if s.isEmpty then none
  else if s.all Char.isDigit then
    some (s.foldl (fun acc c => acc * 10 + decDigitVal c) 0)
  else none

/-- Python's `int(value_str, 16)` on a string that starts with `0x`:
the part after `0x` must be nonempty hexadecimal digits. -/
def pyIntHex (s : List Char) : Option Nat :=
  match s with
  | '0' :: 'x' :: ds =>
    if ds.isEmpty then none
    else if ds.all isHexDigitChar then
      some (ds.foldl (fun acc c => acc * 16 + hexDigitVal c) 0)
    else none
  | _ => none

/-- The test `value_str.startswith("0x")`. -/
def startsWith0x : List Char → Bool
  | '0' :: 'x' :: _ => true
  | _ => false

/-- The conversion branch of `parse_enum_values`:
`int(value_str, 16)` when the string starts with `0x`, else
`int(value_str)`; a `ValueError` (`none`) makes the symbol be skipped. -/
def parseValue (value_str : List Char) : Option Nat :=
  if startsWith0x value_str then pyIntHex value_str else pyIntDec value_str

/-- Python's `value_str.strip()` (whitespace at both ends). -/
def pyStrip (s : List Char) : List Char :=
  ((s.dropWhile Char.isWhitespace).reverse.dropWhile Char.isWhitespace).reverse

/-- Python dict assignment `values[name] = value`: replaces the value of an
existing key in place, otherwise appends. -/
def dictSet : List (String × Nat) → String → Nat → List (String × Nat)
  | [], k, v => [(k, v)]
  | (k', v') :: rest, k, v =>
    if k' = k then (k', v) :: rest else (k', v') :: dictSet rest k v

/-- Python dict lookup `values[name]` / `name in values`. -/
def dictGet : List (String × Nat) → String → Option Nat
  | [], _ => none
  | (k', v') :: rest, k => if k' = k then some v' else dictGet rest k

/-- The mapping built by `parse_enum_values`, given the regex matches as `(name, value_str)`
pairs: strips each value string, keeps it only when the literal conversion
succeeds, and skips complex expressions. -/
def parse_enum_values (decls : List (String × List Char)) :
    List (String × Nat) :=
  decls.foldl
    (fun values m =>
      match parseValue (pyStrip m.2) with
      | some v => dictSet values m.1 v
      | none => values)
    []

/-- Python string `<` (lexicographic by code point), as used by
`sorted(enum_values.keys())`. -/
def strLtB : List Char → List Char → Bool
  | [], [] => false
  | [], _ :: _ => true
  | _ :: _, [] => false
  | a :: as, b :: bs =>
    if a.toNat < b.toNat then true
    else if b.toNat < a.toNat then false
    else strLtB as bs

/-- Comparison `a ≤ b` on strings, for `sorted(...)`. -/
def strLe (a b : String) : Prop :=
  strLtB b.data a.data = false

instance : DecidableRel strLe := fun a b => instDecidableEqBool (strLtB b.data a.data) false

/-- The `sorted(enum_values.keys())` of the error message. -/
def sortedNames (enum_values : List (String × Nat)) : List String :=
  (enum_values.map Prod.fst).insertionSort strLe

/-- The unresolved-symbol diagnostic of `main`: the unknown name plus the
`Available types:` list of all resolved symbol names, sorted. -/
structure UnresolvedSymbol where
  unknown : String
  available : List String
deriving DecidableEq, Repr

/-- The entry-resolution loop of `main`
(`for i, (type_name, handler) in enumerate(zip(type_names, handlers))`):
an unknown type name aborts with the unresolved-symbol error, otherwise
entry `(type_name, enum_values[type_name], i)` is appended. -/
def resolveEntries (enum_values : List (String × Nat)) :
    List String → Nat → Except UnresolvedSymbol (List Entry)
  | [], _ => .ok []
  | type_name :: rest, i =>
    match dictGet enum_values type_name with
    | none => .error ⟨type_name, sortedNames enum_values⟩
    | some v =>
      match resolveEntries enum_values rest (i + 1) with
      | .error err => .error err
      | .ok es => .ok (⟨type_name, v, i⟩ :: es)



/-! ### Small-step unfolding lemmas and the two-entry build -/

theorem succ_mod_ne {N h : Nat} (hN : 2 ≤ N) (hh : h < N) : (h + 1) % N ≠ h := by
  by_cases hc : h + 1 = N
  · rw [hc, Nat.mod_self]
    omega
  · rw [Nat.mod_eq_of_lt (by omega)]
    omega

theorem probeSlot_empty (table : List (Option Entry)) (N h probes fuel : Nat)
    (hf : fuel ≠ 0) (hempty : table.getD h none = none) :
    probeSlot table N h probes fuel = some (h, probes) := by
  obtain ⟨f, rfl⟩ : ∃ f, fuel = f + 1 := ⟨fuel - 1, by omega⟩
  rw [probeSlot, hempty]

theorem probeSlot_occupied (table : List (Option Entry)) (N h probes fuel : Nat)
    (e : Entry) (hocc : table.getD h none = some e) (hb : ¬ N ≤ probes + 1)
    (hf : fuel ≠ 0) :
    probeSlot table N h probes fuel =
      probeSlot table N ((h + 1) % N) (probes + 1) (fuel - 1) := by
  obtain ⟨f, rfl⟩ : ∃ f, fuel = f + 1 := ⟨fuel - 1, by omega⟩
  rw [probeSlot, hocc, if_neg hb]
  rfl

theorem insertLoop_cons {N : Nat} (e : Entry) (rest : List Entry)
    (table : List (Option Entry)) (results : List Placed) (mp h probes : Nat)
    (hp : probeSlot table N (e.key % N) 0 N = some (h, probes)) :
    insertLoop N (e :: rest) table results mp =
      insertLoop N rest (table.set h (some e))
        (results ++ [⟨h, e.name, e.handler_idx, e.key, e.key % N, probes⟩])
        (max mp probes) := by
  rw [insertLoop, hp]

/-- Building from exactly two entries with a common home slot: the first
claims the home slot with no probes, the second is displaced to the next
slot with one probe. -/
theorem build_two (e1 e2 : Entry) (N : Nat) (hN : 2 ≤ N)
    (hcol : e2.key % N = e1.key % N) :
    build [e1, e2] N =
      some ((((List.replicate N none).set (e1.key % N) (some e1)).set
               ((e1.key % N + 1) % N) (some e2)),
            [⟨e1.key % N, e1.name, e1.handler_idx, e1.key, e1.key % N, 0⟩,
             ⟨(e1.key % N + 1) % N, e2.name, e2.handler_idx, e2.key, e2.key % N, 1⟩],
            1) := by
  have h1N : e1.key % N < N := Nat.mod_lt _ (by omega)
  have h2N : (e1.key % N + 1) % N < N := Nat.mod_lt _ (by omega)
  have hne : (e1.key % N + 1) % N ≠ e1.key % N := succ_mod_ne hN h1N
  have hp1 : probeSlot (List.replicate N none) N (e1.key % N) 0 N =
      some (e1.key % N, 0) := by
    refine probeSlot_empty _ _ _ _ _ (by omega) ?_
    rw [getD_replicate, if_pos h1N]
  have hp2 : probeSlot ((List.replicate N none).set (e1.key % N) (some e1)) N
      (e2.key % N) 0 N = some ((e1.key % N + 1) % N, 1) := by
    rw [hcol]
    rw [probeSlot_occupied _ _ _ _ _ e1
      (getD_set_self _ _ _ _ (by rw [List.length_replicate]; exact h1N))
      (by omega) (by omega)]
    refine probeSlot_empty _ _ _ _ _ (by omega) ?_
    rw [getD_set_ne _ _ _ (fun hc => hne hc.symm), getD_replicate, if_pos h2N]
  rw [build, insertLoop_cons e1 [e2] _ _ _ _ _ hp1,
    insertLoop_cons e2 [] _ _ _ _ _ hp2, insertLoop]
  rfl

/-- Splitting a list along a decomposition of its image under `map`. -/
theorem map_split {α β : Type _} (f : α → β) :
    ∀ (s : List β) (l : List α) (b : β) (t : List β),
      l.map f = s ++ b :: t →
      ∃ ls x lt, l = ls ++ x :: lt ∧ ls.map f = s ∧ f x = b ∧ lt.map f = t
  | [], [], b, t, h => by simp at h
  | [], a :: l, b, t, h => by
    simp only [List.map_cons, List.nil_append, List.cons.injEq] at h
    exact ⟨[], a, l, by simp, rfl, h.1, h.2⟩
  | sb :: s, [], b, t, h => by simp at h
  | sb :: s, a :: l, b, t, h => by
    simp only [List.map_cons, List.cons_append, List.cons.injEq] at h
    obtain ⟨ls, x, lt, rfl, hs, hb, ht⟩ := map_split f s l b t h.2
    exact ⟨a :: ls, x, lt, rfl, by simp [h.1, hs], hb, ht⟩



/-! ### Parsing / resolution lemmas -/

theorem mem_dictSet_keys :
    ∀ (m : List (String × Nat)) (k : String) (v : Nat) (n : String),
      n ∈ (dictSet m k v).map Prod.fst ↔ n = k ∨ n ∈ m.map Prod.fst
  | [], k, v, n => by simp [dictSet]
  | (k', v') :: rest, k, v, n => by
    rw [dictSet]
    split
    next hk =>
      subst hk
      simp only [List.map_cons, List.mem_cons]
      tauto
    next hk =>
      simp only [List.map_cons, List.mem_cons, mem_dictSet_keys rest k v n]
      tauto

theorem parse_fold_not_mem (name : String) :
    ∀ (decls : List (String × List Char)) (acc : List (String × Nat)),
      (∀ vs, (name, vs) ∈ decls → parseValue (pyStrip vs) = none) →
      name ∉ acc.map Prod.fst →
      name ∉ (decls.foldl
        (fun values m =>
          match parseValue (pyStrip m.2) with
          | some v => dictSet values m.1 v
          | none => values)
        acc).map Prod.fst
  | [], acc, _, hacc => hacc
  | (nm, vs) :: rest, acc, hbad, hacc => by
    rw [List.foldl_cons]
    cases hv : parseValue (pyStrip vs) with
    | none =>
      exact parse_fold_not_mem name rest acc
        (fun vs' h => hbad vs' (List.mem_cons_of_mem _ h)) hacc
    | some v =>
      refine parse_fold_not_mem name rest (dictSet acc nm v)
        (fun vs' h => hbad vs' (List.mem_cons_of_mem _ h)) ?_
      rw [mem_dictSet_keys]
      rintro (rfl | hmem)
      · rw [hbad vs (List.mem_cons_self _ _)] at hv
        exact Option.noConfusion hv
      · exact hacc hmem

theorem dictGet_eq_none :
    ∀ (m : List (String × Nat)) (name : String),
      name ∉ m.map Prod.fst → dictGet m name = none
  | [], _, _ => rfl
  | (k', v') :: rest, name, hmem => by
    rw [dictGet]
    have hk : k' ≠ name := by
      intro hc
      exact hmem (by simp [hc])
    rw [if_neg hk]
    exact dictGet_eq_none rest name (fun hc => hmem (List.mem_cons_of_mem _ hc))

theorem resolve_error (values : List (String × Nat)) (name : String)
    (hnone : dictGet values name = none) :
    ∀ (tns : List String) (i : Nat), name ∈ tns →
      ∃ err, resolveEntries values tns i = .error err ∧
        err.available = sortedNames values
  | [], _, hmem => absurd hmem (List.not_mem_nil name)
  | tn :: rest, i, hmem => by
    rw [resolveEntries]
    cases hget : dictGet values tn with
    | none => exact ⟨⟨tn, sortedNames values⟩, rfl, rfl⟩
    | some v =>
      have hne : tn ≠ name := by
        intro hc
        rw [hc, hnone] at hget
        exact Option.noConfusion hget
      have hrest : name ∈ rest := by
        rcases List.mem_cons.mp hmem with hc | hc
        · exact absurd hc.symm hne
        · exact hc
      obtain ⟨err, herr, hav⟩ := resolve_error values name hnone rest (i + 1) hrest
      rw [herr]
      exact ⟨err, rfl, hav⟩



/-! ## The claims -/

instance : IsTotal Placed bySlot := ⟨fun a b => Nat.le_total a.slot b.slot⟩

instance : IsTrans Placed bySlot := ⟨fun _ _ _ hab hbc => Nat.le_trans hab hbc⟩

/-- C1: for every entry list with pairwise-distinct keys and every capacity
`> 0` with `len(entries) ≤ capacity`, `compute_hash_table` succeeds, and
for every entry the §4.2 lookup of its key terminates at exactly its
assigned slot, at loop step exactly its recorded `probe_count`, and returns
its `handler_idx`. -/
theorem C1_round_trip (entries : List Entry) (N : Nat)
    (hnodup : (entries.map Entry.key).Nodup) (hN : 0 < N)
    (hlen : entries.length ≤ N) :
    ∃ table res mp,
      build entries N = some (table, res, mp) ∧
      compute_hash_table entries N = some (res.insertionSort bySlot, mp) ∧
      res.map toEntry = entries ∧
      ∀ p ∈ res,
        lookupTrace table N p.key = some (p.probes, p.slot, p.handler_idx) ∧
        lookup table N p.key = some p.handler_idx := by
  obtain ⟨table, res, mp, heq, hInv, hmap⟩ := build_spec hN hlen
  have hkeys : (res.map Placed.key).Nodup := by
    have h1 : res.map Placed.key = (res.map toEntry).map Entry.key := by
      rw [List.map_map]
      rfl
    rw [h1, hmap]
    exact hnodup
  refine ⟨table, res, mp, heq, by rw [compute_hash_table, heq], hmap, ?_⟩
  intro p hp
  have htr : lookupTrace table N p.key = some (p.probes, p.slot, p.handler_idx) := by
    refine lookup_min hInv p hp rfl ?_
    intro q hq hqk
    have hqp := List.inj_on_of_nodup_map hkeys hq hp hqk
    subst hqp
    exact Nat.le_refl _
  refine ⟨htr, ?_⟩
  rw [lookup_eq_trace, htr]
  rfl

/-- Witness for C1: the concrete scenario of spec §8 (capacity 8, colliding
keys 1, 9, 17 with handlers 0, 1, 2). -/
theorem C1_round_trip_witness :
    ((([⟨"A", 1, 0⟩, ⟨"B", 9, 1⟩, ⟨"C", 17, 2⟩] : List Entry).map Entry.key).Nodup ∧
      0 < 8 ∧
      ([⟨"A", 1, 0⟩, ⟨"B", 9, 1⟩, ⟨"C", 17, 2⟩] : List Entry).length ≤ 8) ∧
    (∃ table res mp,
      build [⟨"A", 1, 0⟩, ⟨"B", 9, 1⟩, ⟨"C", 17, 2⟩] 8 = some (table, res, mp) ∧
      compute_hash_table [⟨"A", 1, 0⟩, ⟨"B", 9, 1⟩, ⟨"C", 17, 2⟩] 8 =
        some (res.insertionSort bySlot, mp) ∧
      res.map toEntry = [⟨"A", 1, 0⟩, ⟨"B", 9, 1⟩, ⟨"C", 17, 2⟩] ∧
      ∀ p ∈ res,
        lookupTrace table 8 p.key = some (p.probes, p.slot, p.handler_idx) ∧
        lookup table 8 p.key = some p.handler_idx) :=
  ⟨⟨by decide, by decide, by decide⟩,
    C1_round_trip [⟨"A", 1, 0⟩, ⟨"B", 9, 1⟩, ⟨"C", 17, 2⟩] 8
      (by decide) (by decide) (by decide)⟩

/-- C2 (counterexample): on the built table for the single entry
`("A", key 0, handler 0)`, §4.2 lookup of key 0 returns handler 0, but the
emitted lookup — which treats `key == 0` as the Empty sentinel — returns
`-1`; so the emitted function does not implement §4.2 for every built
table. -/
theorem C2_counterexample :
    build [⟨"A", 0, 0⟩] 1 = some ([some ⟨"A", 0, 0⟩], [⟨0, "A", 0, 0, 0, 0⟩], 0) ∧
    compute_hash_table [⟨"A", 0, 0⟩] 1 = some ([⟨0, "A", 0, 0, 0, 0⟩], 0) ∧
    lookup [some ⟨"A", 0, 0⟩] 1 0 = some 0 ∧
    dispatch_hash_lookup (g_dispatch_hash [⟨0, "A", 0, 0, 0, 0⟩] 1) 1 0 = -1 ∧
    dispatch_hash_lookup (g_dispatch_hash [⟨0, "A", 0, 0, 0, 0⟩] 1) 1 0 ≠
      intOfLookup (lookup [some ⟨"A", 0, 0⟩] 1 0) := by
  decide

/-- C2 (amended): provided no entry key is 0 and every handler index fits in
the emitted `uint8_t` field, the emitted lookup on the emitted table agrees
with the §4.2 lookup on the built table for every key (`NotFound ↦ -1`). -/
theorem C2_sentinel_refinement (entries : List Entry) (N : Nat) (hN : 0 < N)
    (table : List (Option Entry)) (res : List Placed) (mp : Nat)
    (heq : build entries N = some (table, res, mp))
    (hkey0 : ∀ e ∈ entries, e.key ≠ 0)
    (hh256 : ∀ e ∈ entries, e.handler_idx < 256) :
    compute_hash_table entries N = some (res.insertionSort bySlot, mp) ∧
    ∀ key,
      dispatch_hash_lookup (g_dispatch_hash (res.insertionSort bySlot) N) N key =
        intOfLookup (lookup table N key) := by
  obtain ⟨hInv, hmap⟩ := build_inv hN heq
  have hclean : ∀ j (e : Entry), table.getD j none = some e →
      e.key ≠ 0 ∧ e.handler_idx < 256 := by
    intro j e hj
    obtain ⟨p, hpmem, hpj⟩ := hInv.occFrom j (by rw [hj]; simp)
    have hc := hInv.content p hpmem
    rw [hpj, hj] at hc
    injection hc with he
    have hin : toEntry p ∈ entries := by
      rw [← hmap]
      exact List.mem_map_of_mem toEntry hpmem
    rw [he]
    exact ⟨hkey0 _ hin, hh256 _ hin⟩
  have hg := g_dispatch_hash_eq hInv (List.perm_insertionSort bySlot res)
  refine ⟨by rw [compute_hash_table, heq], ?_⟩
  intro key
  rw [hg, dispatch_hash_lookup, lookup]
  exact cLookupLoop_eq hclean N 0 (key % N)

/-- Witness for the amended C2. -/
theorem C2_sentinel_refinement_witness :
    (0 < 2 ∧
      build [⟨"A", 1, 7⟩] 2 = some ([none, some ⟨"A", 1, 7⟩], [⟨1, "A", 7, 1, 1, 0⟩], 0) ∧
      (∀ e ∈ ([⟨"A", 1, 7⟩] : List Entry), e.key ≠ 0) ∧
      (∀ e ∈ ([⟨"A", 1, 7⟩] : List Entry), e.handler_idx < 256)) ∧
    (compute_hash_table [⟨"A", 1, 7⟩] 2 =
        some (([⟨1, "A", 7, 1, 1, 0⟩] : List Placed).insertionSort bySlot, 0) ∧
      ∀ key,
        dispatch_hash_lookup
            (g_dispatch_hash (([⟨1, "A", 7, 1, 1, 0⟩] : List Placed).insertionSort bySlot) 2) 2 key =
          intOfLookup (lookup [none, some ⟨"A", 1, 7⟩] 2 key)) :=
  ⟨⟨by decide, by decide, by decide, by decide⟩,
    C2_sentinel_refinement [⟨"A", 1, 7⟩] 2 (by decide) [none, some ⟨"A", 1, 7⟩]
      [⟨1, "A", 7, 1, 1, 0⟩] 0 (by decide) (by decide) (by decide)⟩

/-- C3 (counterexample): with capacity 3 and keys 3, 6, 9 (all ≡ 0 mod 3)
`compute_hash_table` does **not** overflow: the third insertion probes the
occupied slots 0 and 1 and settles in the empty slot 2 after 2 probes. -/
theorem C3_counterexample :
    compute_hash_table [⟨"A", 3, 0⟩, ⟨"B", 6, 1⟩, ⟨"C", 9, 2⟩] 3 =
      some ([⟨0, "A", 0, 3, 0, 0⟩, ⟨1, "B", 1, 6, 0, 1⟩, ⟨2, "C", 2, 9, 0, 2⟩], 2) := by
  decide

/-- C3 (amended): capacity 3 with keys {3, 6, 9} builds successfully
(slots 0, 1, 2); the overflow error instead requires a fourth colliding
entry, e.g. key 12 (≡ 0 mod 3), whose insertion probes all 3 slots without
finding an empty one. -/
theorem C3_overflow :
    compute_hash_table [⟨"A", 3, 0⟩, ⟨"B", 6, 1⟩, ⟨"C", 9, 2⟩] 3 ≠ none ∧
    build [⟨"A", 3, 0⟩, ⟨"B", 6, 1⟩, ⟨"C", 9, 2⟩, ⟨"D", 12, 3⟩] 3 = none ∧
    compute_hash_table [⟨"A", 3, 0⟩, ⟨"B", 6, 1⟩, ⟨"C", 9, 2⟩, ⟨"D", 12, 3⟩] 3 = none := by
  decide

/-- C4 (counterexample): two entries with the same key 5 do **not** make
`compute_hash_table` fail — it silently places both (slots 1 and 0). -/
theorem C4_counterexample :
    ([⟨"A", 5, 0⟩, ⟨"A", 5, 1⟩] : List Entry).map Entry.key = [5, 5] ∧
    compute_hash_table [⟨"A", 5, 0⟩, ⟨"A", 5, 1⟩] 2 =
      some ([⟨0, "A", 1, 5, 1, 1⟩, ⟨1, "A", 0, 5, 1, 0⟩], 1) := by
  decide

/-- C4 (amended): `compute_hash_table` performs no duplicate-key check:
whenever the entries (duplicates included) fit in the table, the build
succeeds, placing every occurrence in its own distinct slot. -/
theorem C4_no_duplicate_check (l₁ l₂ l₃ : List Entry) (a b : Entry) (N : Nat)
    (hN : 0 < N) (hdup : a.key = b.key)
    (hlen : (l₁ ++ a :: l₂ ++ b :: l₃).length ≤ N) :
    ∃ table res mp,
      build (l₁ ++ a :: l₂ ++ b :: l₃) N = some (table, res, mp) ∧
      compute_hash_table (l₁ ++ a :: l₂ ++ b :: l₃) N ≠ none ∧
      res.map toEntry = l₁ ++ a :: l₂ ++ b :: l₃ ∧
      (res.map Placed.slot).Nodup := by
  obtain ⟨table, res, mp, heq, hInv, hmap⟩ := build_spec hN hlen
  refine ⟨table, res, mp, heq, ?_, hmap, hInv.slotsNodup⟩
  rw [compute_hash_table, heq]
  exact fun hc => Option.noConfusion hc

/-- Witness for the amended C4. -/
theorem C4_no_duplicate_check_witness :
    (0 < 2 ∧ (⟨"A", 5, 0⟩ : Entry).key = (⟨"A", 5, 1⟩ : Entry).key ∧
      (([] : List Entry) ++ ⟨"A", 5, 0⟩ :: ([] : List Entry) ++ ⟨"A", 5, 1⟩ :: ([] : List Entry)).length ≤ 2) ∧
    (∃ table res mp,
      build (([] : List Entry) ++ ⟨"A", 5, 0⟩ :: ([] : List Entry) ++ ⟨"A", 5, 1⟩ :: ([] : List Entry)) 2 =
        some (table, res, mp) ∧
      compute_hash_table (([] : List Entry) ++ ⟨"A", 5, 0⟩ :: ([] : List Entry) ++ ⟨"A", 5, 1⟩ :: ([] : List Entry)) 2 ≠ none ∧
      res.map toEntry = ([] : List Entry) ++ ⟨"A", 5, 0⟩ :: ([] : List Entry) ++ ⟨"A", 5, 1⟩ :: ([] : List Entry) ∧
      (res.map Placed.slot).Nodup) :=
  ⟨⟨by decide, by decide, by decide⟩,
    C4_no_duplicate_check [] [] [] ⟨"A", 5, 0⟩ ⟨"A", 5, 1⟩ 2
      (by decide) (by decide) (by decide)⟩

/-- C6: every record of a successful `compute_hash_table` satisfies the slot
invariant `slot = (key mod capacity + probe_count) mod capacity`. -/
theorem C6_slot_invariant (entries : List Entry) (N : Nat) (hN : 0 < N)
    (res : List Placed) (mp : Nat)
    (heq : compute_hash_table entries N = some (res, mp)) :
    ∀ p ∈ res, p.slot = (p.key % N + p.probes) % N := by
  rw [compute_hash_table] at heq
  cases hb : build entries N with
  | none =>
    rw [hb] at heq
    exact Option.noConfusion heq
  | some t =>
    obtain ⟨table, placed, mp'⟩ := t
    rw [hb] at heq
    simp only [Option.some.injEq, Prod.mk.injEq] at heq
    obtain ⟨hres, hmp⟩ := heq
    obtain ⟨hInv, -⟩ := build_inv hN hb
    intro p hp
    refine hInv.slotEq p ?_
    rw [← hres] at hp
    exact ((List.perm_insertionSort bySlot placed).mem_iff).mp hp

/-- Witness for C6. -/
theorem C6_slot_invariant_witness :
    (0 < 8 ∧
      compute_hash_table [⟨"A", 1, 0⟩, ⟨"B", 9, 1⟩] 8 =
        some ([⟨1, "A", 0, 1, 1, 0⟩, ⟨2, "B", 1, 9, 1, 1⟩], 1)) ∧
    ∀ p ∈ ([⟨1, "A", 0, 1, 1, 0⟩, ⟨2, "B", 1, 9, 1, 1⟩] : List Placed),
      p.slot = (p.key % 8 + p.probes) % 8 :=
  ⟨⟨by decide, by decide⟩,
    C6_slot_invariant [⟨"A", 1, 0⟩, ⟨"B", 9, 1⟩] 8 (by decide)
      [⟨1, "A", 0, 1, 1, 0⟩, ⟨2, "B", 1, 9, 1, 1⟩] 1 (by decide)⟩

/-- C7: for every built table and every key not among the entry keys, §4.2
lookup returns `NotFound` and the emitted lookup on the emitted table
returns `-1`, inspecting at most `capacity` slots. -/
theorem C7_negative_lookup (entries : List Entry) (N : Nat) (hN : 0 < N)
    (table : List (Option Entry)) (res : List Placed) (mp : Nat)
    (heq : build entries N = some (table, res, mp))
    (key : Nat) (habs : key ∉ entries.map Entry.key) :
    lookup table N key = none ∧
    dispatch_hash_lookup (g_dispatch_hash (res.insertionSort bySlot) N) N key = -1 ∧
    (cLookupLoop (g_dispatch_hash (res.insertionSort bySlot) N) N key (key % N) 0 N).2 ≤ N := by
  obtain ⟨hInv, hmap⟩ := build_inv hN heq
  have habs' : ∀ j (e : Entry), table.getD j none = some e → e.key ≠ key := by
    intro j e hj hkey
    obtain ⟨p, hpmem, hpj⟩ := hInv.occFrom j (by rw [hj]; simp)
    have hc := hInv.content p hpmem
    rw [hpj, hj] at hc
    injection hc with he
    apply habs
    have hk2 : (toEntry p).key = key := by rw [← he]; exact hkey
    rw [← hk2]
    refine List.mem_map_of_mem Entry.key ?_
    rw [← hmap]
    exact List.mem_map_of_mem toEntry hpmem
  have hg := g_dispatch_hash_eq hInv (List.perm_insertionSort bySlot res)
  refine ⟨?_, ?_, ?_⟩
  · rw [lookup]
    exact lookupLoop_absent habs' N 0 (key % N)
  · rw [hg, dispatch_hash_lookup]
    exact cLookupLoop_absent habs' N 0 (key % N)
  · exact cLookupLoop_count _ N key (key % N) N 0 (by omega)

/-- Witness for C7: key 5 is absent from the single-entry table. -/
theorem C7_negative_lookup_witness :
    (0 < 2 ∧
      build [⟨"A", 1, 0⟩] 2 = some ([none, some ⟨"A", 1, 0⟩], [⟨1, "A", 0, 1, 1, 0⟩], 0) ∧
      5 ∉ ([⟨"A", 1, 0⟩] : List Entry).map Entry.key) ∧
    (lookup [none, some ⟨"A", 1, 0⟩] 2 5 = none ∧
      dispatch_hash_lookup
          (g_dispatch_hash (([⟨1, "A", 0, 1, 1, 0⟩] : List Placed).insertionSort bySlot) 2) 2 5 = -1 ∧
      (cLookupLoop (g_dispatch_hash (([⟨1, "A", 0, 1, 1, 0⟩] : List Placed).insertionSort bySlot) 2) 2 5
          (5 % 2) 0 2).2 ≤ 2) :=
  ⟨⟨by decide, by decide, by decide⟩,
    C7_negative_lookup [⟨"A", 1, 0⟩] 2 (by decide) [none, some ⟨"A", 1, 0⟩]
      [⟨1, "A", 0, 1, 1, 0⟩] 0 (by decide) 5 (by decide)⟩



/-- C5: with two entries sharing a home slot, the first-in-input-order entry
claims the home slot (0 probes) and the second is displaced to the next
slot (1 probe); reversing the input order swaps the occupants, and in both
orders each entry is found by §4.2 lookup with its own handler index. -/
theorem C5_order_sensitivity (e1 e2 : Entry) (N : Nat) (hN : 2 ≤ N)
    (hcol : e1.key % N = e2.key % N) (hkeys : e1.key ≠ e2.key) :
    ∃ t res mp t' res' mp',
      build [e1, e2] N = some (t, res, mp) ∧
      build [e2, e1] N = some (t', res', mp') ∧
      t.getD (e1.key % N) none = some e1 ∧
      t.getD ((e1.key % N + 1) % N) none = some e2 ∧
      t'.getD (e1.key % N) none = some e2 ∧
      t'.getD ((e1.key % N + 1) % N) none = some e1 ∧
      lookup t N e1.key = some e1.handler_idx ∧
      lookup t N e2.key = some e2.handler_idx ∧
      lookup t' N e1.key = some e1.handler_idx ∧
      lookup t' N e2.key = some e2.handler_idx := by
  have h1N : e1.key % N < N := Nat.mod_lt _ (by omega)
  have h2N : (e1.key % N + 1) % N < N := Nat.mod_lt _ (by omega)
  have hne : (e1.key % N + 1) % N ≠ e1.key % N := succ_mod_ne hN h1N
  have hb1 := build_two e1 e2 N hN hcol.symm
  have hb2 := build_two e2 e1 N hN hcol
  rw [← hcol] at hb2
  obtain ⟨hInv1, -⟩ := build_inv (by omega : 0 < N) hb1
  obtain ⟨hInv2, -⟩ := build_inv (by omega : 0 < N) hb2
  have hrep : (List.replicate N (none : Option Entry)).length = N :=
    List.length_replicate N none
  have hset1 : ((List.replicate N (none : Option Entry)).set (e1.key % N)
      (some e1)).length = N := by
    rw [List.length_set, hrep]
  have hset2 : ((List.replicate N (none : Option Entry)).set (e1.key % N)
      (some e2)).length = N := by
    rw [List.length_set, hrep]
  refine ⟨_, _, _, _, _, _, hb1, hb2, ?_, ?_, ?_, ?_, ?_, ?_, ?_, ?_⟩
  · rw [getD_set_ne _ _ _ hne, getD_set_self _ _ _ _ (by rw [hrep]; exact h1N)]
  · rw [getD_set_self _ _ _ _ (by rw [hset1]; exact h2N)]
  · rw [getD_set_ne _ _ _ hne, getD_set_self _ _ _ _ (by rw [hrep]; exact h1N)]
  · rw [getD_set_self _ _ _ _ (by rw [hset2]; exact h2N)]
  · have htr := lookup_min hInv1
      ⟨e1.key % N, e1.name, e1.handler_idx, e1.key, e1.key % N, 0⟩
      (List.mem_cons_self _ _) rfl ?_
    · rw [lookup_eq_trace, htr]
      rfl
    · intro q hq hqk
      rcases List.mem_cons.mp hq with rfl | hq2
      · exact Nat.le_refl _
      · rcases List.mem_cons.mp hq2 with rfl | h3
        · exact absurd hqk (Ne.symm hkeys)
        · exact absurd h3 (List.not_mem_nil q)
  · have htr := lookup_min hInv1
      ⟨(e1.key % N + 1) % N, e2.name, e2.handler_idx, e2.key, e2.key % N, 1⟩
      (List.mem_cons_of_mem _ (List.mem_cons_self _ _)) rfl ?_
    · rw [lookup_eq_trace, htr]
      rfl
    · intro q hq hqk
      rcases List.mem_cons.mp hq with rfl | hq2
      · exact absurd hqk hkeys
      · rcases List.mem_cons.mp hq2 with rfl | h3
        · exact Nat.le_refl _
        · exact absurd h3 (List.not_mem_nil q)
  · have htr := lookup_min hInv2
      ⟨(e1.key % N + 1) % N, e1.name, e1.handler_idx, e1.key, e1.key % N, 1⟩
      (List.mem_cons_of_mem _ (List.mem_cons_self _ _)) rfl ?_
    · rw [lookup_eq_trace, htr]
      rfl
    · intro q hq hqk
      rcases List.mem_cons.mp hq with rfl | hq2
      · exact absurd hqk (Ne.symm hkeys)
      · rcases List.mem_cons.mp hq2 with rfl | h3
        · exact Nat.le_refl _
        · exact absurd h3 (List.not_mem_nil q)
  · have htr := lookup_min hInv2
      ⟨e1.key % N, e2.name, e2.handler_idx, e2.key, e1.key % N, 0⟩
      (List.mem_cons_self _ _) rfl ?_
    · rw [lookup_eq_trace, htr]
      rfl
    · intro q hq hqk
      rcases List.mem_cons.mp hq with rfl | hq2
      · exact Nat.le_refl _
      · rcases List.mem_cons.mp hq2 with rfl | h3
        · exact absurd hqk hkeys
        · exact absurd h3 (List.not_mem_nil q)

/-- Witness for C5: keys 1 and 9, capacity 8 (common home slot 1). -/
theorem C5_order_sensitivity_witness :
    (2 ≤ 8 ∧ (⟨"A", 1, 0⟩ : Entry).key % 8 = (⟨"B", 9, 1⟩ : Entry).key % 8 ∧
      (⟨"A", 1, 0⟩ : Entry).key ≠ (⟨"B", 9, 1⟩ : Entry).key) ∧
    (∃ t res mp t' res' mp',
      build [⟨"A", 1, 0⟩, ⟨"B", 9, 1⟩] 8 = some (t, res, mp) ∧
      build [⟨"B", 9, 1⟩, ⟨"A", 1, 0⟩] 8 = some (t', res', mp') ∧
      t.getD ((⟨"A", 1, 0⟩ : Entry).key % 8) none = some ⟨"A", 1, 0⟩ ∧
      t.getD (((⟨"A", 1, 0⟩ : Entry).key % 8 + 1) % 8) none = some ⟨"B", 9, 1⟩ ∧
      t'.getD ((⟨"A", 1, 0⟩ : Entry).key % 8) none = some ⟨"B", 9, 1⟩ ∧
      t'.getD (((⟨"A", 1, 0⟩ : Entry).key % 8 + 1) % 8) none = some ⟨"A", 1, 0⟩ ∧
      lookup t 8 (⟨"A", 1, 0⟩ : Entry).key = some (⟨"A", 1, 0⟩ : Entry).handler_idx ∧
      lookup t 8 (⟨"B", 9, 1⟩ : Entry).key = some (⟨"B", 9, 1⟩ : Entry).handler_idx ∧
      lookup t' 8 (⟨"A", 1, 0⟩ : Entry).key = some (⟨"A", 1, 0⟩ : Entry).handler_idx ∧
      lookup t' 8 (⟨"B", 9, 1⟩ : Entry).key = some (⟨"B", 9, 1⟩ : Entry).handler_idx) :=
  ⟨⟨by decide, by decide, by decide⟩,
    C5_order_sensitivity ⟨"A", 1, 0⟩ ⟨"B", 9, 1⟩ 8 (by decide) (by decide) (by decide)⟩

/-- C8: a symbol all of whose declarations have non-literal values is
excluded from the resolved mapping, and requesting it in a type list makes
resolution fail with an unresolved-symbol error whose `available` list
holds exactly the resolved symbol names. -/
theorem C8_unsupported_symbol (decls : List (String × List Char)) (name : String)
    (hbad : ∀ vs, (name, vs) ∈ decls → parseValue (pyStrip vs) = none) :
    name ∉ (parse_enum_values decls).map Prod.fst ∧
    ∀ (type_names : List String) (i : Nat), name ∈ type_names →
      ∃ err, resolveEntries (parse_enum_values decls) type_names i = .error err ∧
        err.available.Perm ((parse_enum_values decls).map Prod.fst) := by
  have hnot : name ∉ (parse_enum_values decls).map Prod.fst :=
    parse_fold_not_mem name decls [] hbad (by simp)
  refine ⟨hnot, ?_⟩
  intro type_names i hmem
  obtain ⟨err, herr, hav⟩ := resolve_error (parse_enum_values decls) name
    (dictGet_eq_none _ name hnot) type_names i hmem
  refine ⟨err, herr, ?_⟩
  rw [hav, sortedNames]
  exact List.perm_insertionSort strLe _

/-- Witness for C8: `FOO = BAR + 1` is skipped while `BAR = 1` resolves, and
requesting `FOO` errors with `BAR` as the only available symbol. -/
theorem C8_unsupported_symbol_witness :
    (∀ vs, ("FOO", vs) ∈ [("BAR", '1' :: []), ("FOO", 'B' :: 'A' :: 'R' :: ' ' :: '+' :: ' ' :: '1' :: [])] →
      parseValue (pyStrip vs) = none) ∧
    ("FOO" ∉ (parse_enum_values [("BAR", '1' :: []), ("FOO", 'B' :: 'A' :: 'R' :: ' ' :: '+' :: ' ' :: '1' :: [])]).map Prod.fst ∧
      ∀ (type_names : List String) (i : Nat), "FOO" ∈ type_names →
        ∃ err,
          resolveEntries
              (parse_enum_values [("BAR", '1' :: []), ("FOO", 'B' :: 'A' :: 'R' :: ' ' :: '+' :: ' ' :: '1' :: [])])
              type_names i = .error err ∧
          err.available.Perm
            ((parse_enum_values [("BAR", '1' :: []), ("FOO", 'B' :: 'A' :: 'R' :: ' ' :: '+' :: ' ' :: '1' :: [])]).map Prod.fst)) := by
  have hbad : ∀ vs, ("FOO", vs) ∈
      [("BAR", '1' :: []), ("FOO", 'B' :: 'A' :: 'R' :: ' ' :: '+' :: ' ' :: '1' :: [])] →
      parseValue (pyStrip vs) = none := by
    intro vs hv
    rcases List.mem_cons.mp hv with h1 | hv2
    · simp at h1
    · rcases List.mem_cons.mp hv2 with h2 | h3
      · injection h2 with h2a h2b
        subst h2b
        decide
      · exact absurd h3 (List.not_mem_nil _)
  exact ⟨hbad,
    C8_unsupported_symbol
      [("BAR", '1' :: []), ("FOO", 'B' :: 'A' :: 'R' :: ' ' :: '+' :: ' ' :: '1' :: [])]
      "FOO" hbad⟩

/-- C9: `compute_hash_table` returns its records sorted by ascending slot
index — not in entry input order, as the concrete example shows. -/
theorem C9_results_sorted :
    (∀ (entries : List Entry) (N : Nat) (res : List Placed) (mp : Nat),
        compute_hash_table entries N = some (res, mp) → res.Pairwise bySlot) ∧
    (∃ res mp,
      compute_hash_table [⟨"A", 5, 0⟩, ⟨"B", 1, 1⟩] 8 = some (res, mp) ∧
      res.map Placed.name ≠ ["A", "B"]) := by
  constructor
  · intro entries N res mp heq
    rw [compute_hash_table] at heq
    cases hb : build entries N with
    | none =>
      rw [hb] at heq
      exact Option.noConfusion heq
    | some t =>
      obtain ⟨table, placed, mp'⟩ := t
      rw [hb] at heq
      simp only [Option.some.injEq, Prod.mk.injEq] at heq
      obtain ⟨hres, -⟩ := heq
      rw [← hres]
      exact List.sorted_insertionSort bySlot placed
  · exact ⟨[⟨1, "B", 1, 1, 1, 0⟩, ⟨5, "A", 0, 5, 5, 0⟩], 0, by decide, by decide⟩

/-- Witness for C9's universally quantified part. -/
theorem C9_results_sorted_witness :
    (compute_hash_table [⟨"A", 5, 0⟩, ⟨"B", 1, 1⟩] 8 =
        some ([⟨1, "B", 1, 1, 1, 0⟩, ⟨5, "A", 0, 5, 5, 0⟩], 0)) ∧
    List.Pairwise bySlot [⟨1, "B", 1, 1, 1, 0⟩, ⟨5, "A", 0, 5, 5, 0⟩] :=
  ⟨by decide,
    C9_results_sorted.1 [⟨"A", 5, 0⟩, ⟨"B", 1, 1⟩] 8
      [⟨1, "B", 1, 1, 1, 0⟩, ⟨5, "A", 0, 5, 5, 0⟩] 0 (by decide)⟩

/-- C10: with duplicate keys and room in the table, the build succeeds, the
occurrences land in distinct slots, and §4.2 lookup of the duplicated key
returns the handler of the occurrence that appears first in input order. -/
theorem C10_first_occurrence_wins (pre post : List Entry) (e : Entry) (N : Nat)
    (hN : 0 < N) (hlen : (pre ++ e :: post).length ≤ N)
    (hfirst : e.key ∉ pre.map Entry.key)
    (hdup : e.key ∈ post.map Entry.key) :
    ∃ table res mp,
      build (pre ++ e :: post) N = some (table, res, mp) ∧
      compute_hash_table (pre ++ e :: post) N = some (res.insertionSort bySlot, mp) ∧
      (res.map Placed.slot).Nodup ∧
      lookup table N e.key = some e.handler_idx := by
  obtain ⟨table, res, mp, heq, hInv, hmap⟩ := build_spec hN hlen
  obtain ⟨rpre, p₀, rpost, rfl, hpre, hp₀, hpost⟩ :=
    map_split toEntry pre res e post hmap
  have hp₀key : p₀.key = e.key := by rw [← hp₀]; rfl
  have hp₀handler : p₀.handler_idx = e.handler_idx := by rw [← hp₀]; rfl
  have hmin : ∀ q ∈ rpre ++ p₀ :: rpost, q.key = e.key → p₀.probes ≤ q.probes := by
    intro q hq hqk
    rcases List.mem_append.mp hq with hql | hqr
    · exfalso
      apply hfirst
      rw [← hqk, ← hpre]
      show Placed.key q ∈ (List.map toEntry rpre).map Entry.key
      rw [List.map_map]
      exact List.mem_map_of_mem _ hql
    · rcases List.mem_cons.mp hqr with rfl | hq2
      · exact Nat.le_refl _
      · have hpair := (List.pairwise_append.mp hInv.probeMono).2.1
        have hrel := (List.pairwise_cons.mp hpair).1 q hq2
        exact Nat.le_of_lt (hrel (by rw [hp₀key, hqk]))
  have htr := lookup_min hInv p₀
    (List.mem_append_right rpre (List.mem_cons_self p₀ rpost)) hp₀key hmin
  refine ⟨table, rpre ++ p₀ :: rpost, mp, heq, by rw [compute_hash_table, heq],
    hInv.slotsNodup, ?_⟩
  rw [lookup_eq_trace, htr, Option.map_some', hp₀handler]

/-- Witness for C10: duplicated key 5, capacity 4. -/
theorem C10_first_occurrence_wins_witness :
    (0 < 4 ∧ (([] : List Entry) ++ ⟨"A", 5, 0⟩ :: ([⟨"B", 5, 1⟩] : List Entry)).length ≤ 4 ∧
      (⟨"A", 5, 0⟩ : Entry).key ∉ ([] : List Entry).map Entry.key ∧
      (⟨"A", 5, 0⟩ : Entry).key ∈ ([⟨"B", 5, 1⟩] : List Entry).map Entry.key) ∧
    (∃ table res mp,
      build (([] : List Entry) ++ ⟨"A", 5, 0⟩ :: ([⟨"B", 5, 1⟩] : List Entry)) 4 = some (table, res, mp) ∧
      compute_hash_table (([] : List Entry) ++ ⟨"A", 5, 0⟩ :: ([⟨"B", 5, 1⟩] : List Entry)) 4 =
        some (res.insertionSort bySlot, mp) ∧
      (res.map Placed.slot).Nodup ∧
      lookup table 4 (⟨"A", 5, 0⟩ : Entry).key = some (⟨"A", 5, 0⟩ : Entry).handler_idx) :=
  ⟨⟨by decide, by decide, by decide, by decide⟩,
    C10_first_occurrence_wins [] [⟨"B", 5, 1⟩] ⟨"A", 5, 0⟩ 4
      (by decide) (by decide) (by decide) (by decide)⟩


end DispatchTable
